import Mathlib

/-!
Verification of the syntax-highlighting and auto-indent core of
butterflyCode.py (a Qt-based Java editor).

The highlighter (`JavaHighlighter`) holds an ordered rule table of
(QRegularExpression, format) pairs: one word-boundary-anchored rule per Java
keyword, then a single greedy string rule `".*"`.  `highlightBlock` iterates
the rules in order and, for each rule, walks `globalMatch` (all
non-overlapping matches, left to right) calling `setFormat` on each match —
later rules overwrite earlier formats on overlap.

The indent engine (`CodeEditor.keyPressEvent`) takes the text of the line the
cursor was on, counts its leading literal spaces via
`len(line) - len(line.lstrip(' '))`, adds 4 when `line.strip()` ends with an
opening brace, and inserts that many spaces after the newline.

Lines are embedded as `List Char`; the relevant regex dialect fragments
(`\bkw\b`, a greedy `".*"`, and a to-end-of-line comment) are embedded as a
small `Pattern` type whose matcher follows PCRE semantics for exactly those
patterns, and the `globalMatch` loop is embedded as a fuel-driven scan that
resumes after each match's end.
-/

namespace ButterflyCode

/-- PCRE word characters: `[A-Za-z0-9_]`, the class defining the word
boundary assertion used by the keyword patterns. -/
def isWordChar (c : Char) : Bool :=
  ('a' ≤ c && c ≤ 'z') || ('A' ≤ c && c ≤ 'Z') || ('0' ≤ c && c ≤ '9') || c = '_'

/-- Whether position i of the text holds a word character (out of range
counts as non-word, as at the edges of a regex subject string). -/
def isWordAt (text : List Char) (i : Nat) : Bool :=
  match text.get? i with
  | some c => isWordChar c
  | none => false

/-- The regex word-boundary assertion at position i: the word-ness of the
character before i differs from the word-ness of the character at i. -/
def wordBoundary (text : List Char) (i : Nat) : Bool :=
  (if i = 0 then false else isWordAt text (i - 1)) != isWordAt text i

/-- The three regex shapes occurring in the repository's rule tables:
keyword patterns `\bkw\b`, the greedy single-line string pattern `".*"`,
and a comment pattern matching from a double slash to end of line. -/
inductive Pattern
  | word (kw : List Char)
  | quotedGreedy
  | lineComment
deriving DecidableEq

/-- Index of the last occurrence of a character in a list, if any. -/
def lastIndexOf (c : Char) : List Char → Option Nat
  | [] => none
  | a :: rest =>
    match lastIndexOf c rest with
    | some r => some (r + 1)
    | none => if a = c then some 0 else none

/-- Index of the first occurrence of a character in a list, if any. -/
def firstIndexOf (c : Char) : List Char → Option Nat
  | [] => none
  | a :: rest => if a = c then some 0 else (firstIndexOf c rest).map (· + 1)

/-- Number of occurrences of a character in a list. -/
def countCh (c : Char) : List Char → Nat
  | [] => 0
  | a :: rest => (if a = c then 1 else 0) + countCh c rest

/-- Attempt to match a pattern at position i of the text, returning the match
length on success.  Follows PCRE semantics for the three concrete shapes:
a `\bkw\b` match needs both boundaries and the literal keyword; the greedy
`".*"` match at an opening quote runs to the last quote on the line
(requiring at least one further quote); a comment match runs from a double
slash to end of line. -/
def matchAt (p : Pattern) (text : List Char) (i : Nat) : Option Nat :=
  match p with
  | .word kw =>
    if wordBoundary text i && kw.isPrefixOf (text.drop i) && wordBoundary text (i + kw.length)
    then some kw.length else none
  | .quotedGreedy =>
    if text.get? i = some '"' then
      match lastIndexOf '"' (text.drop (i + 1)) with
      | some r => some (r + 2)
      | none => none
    else none
  | .lineComment =>
    if text.get? i = some '/' && text.get? (i + 1) = some '/'
    then some (text.length - i) else none

/-- The `globalMatch` iteration: starting from position i, find successive
matches left to right, resuming immediately after each match's end; a
position with no match advances by one.  Fuel bounds the loop (the caller
passes text.length + 1, enough to visit every position once). -/
def scan (p : Pattern) (text : List Char) : Nat → Nat → List (Nat × Nat)
  | _, 0 => []
  | i, fuel + 1 =>
    match matchAt p text i with
    | some n => (i, n) :: scan p text (i + n) fuel
    | none => if i < text.length then scan p text (i + 1) fuel else []

/-- All non-overlapping matches of a pattern in the text, left to right, as
(start, length) pairs — the result of walking the pattern's
QRegularExpressionMatchIterator over the line. -/
def findMatches (p : Pattern) (text : List Char) : List (Nat × Nat) :=
  scan p text 0 (text.length + 1)

/-- Display styles of the rule tables: keyword blue, string red, and the
comment style of the repository's comment rule. -/
inductive Style
  | keyword
  | str
  | comment
deriving DecidableEq

/-- One entry of a rule table: a pattern and the format it paints. -/
structure Rule where
  pattern : Pattern
  style : Style
deriving DecidableEq

/-- A styled span within a line: one setFormat(start, len, style) call. -/
structure Span where
  start : Nat
  len : Nat
  style : Style
deriving DecidableEq

/-- The Java keyword list of JavaHighlighter.__init__, in source order. -/
def javaKeywords : List String :=
  ["abstract", "assert", "boolean", "break", "byte", "case", "catch",
   "char", "class", "const", "continue", "default", "do", "double",
   "else", "enum", "extends", "final", "finally", "float", "for",
   "goto", "if", "implements", "import", "instanceof", "int",
   "interface", "long", "native", "new", "null", "package",
   "private", "protected", "public", "return", "short", "static",
   "strictfp", "super", "switch", "synchronized", "this", "throw",
   "throws", "transient", "try", "void", "volatile", "while"]

/-- The keyword rules: one word-boundary-anchored rule per keyword, all with
the keyword style, appended in keyword-list order. -/
def keywordRules : List Rule :=
  javaKeywords.map (fun kw => ⟨Pattern.word kw.data, Style.keyword⟩)

/-- The single greedy string-literal rule, appended after the keywords. -/
def stringRule : Rule := ⟨Pattern.quotedGreedy, Style.str⟩

/-- The full rule table of JavaHighlighter: keyword rules then the string
rule. -/
def javaRules : List Rule := keywordRules ++ [stringRule]

/-- The spans one rule contributes to a line: one span per match. -/
def ruleSpans (r : Rule) (text : List Char) : List Span :=
  (findMatches r.pattern text).map (fun m => ⟨m.1, m.2, r.style⟩)

/-- All spans of a rule table on a line, in rule order then match order —
the order in which highlightBlock issues its setFormat calls. -/
def highlight (rules : List Rule) (text : List Char) : List Span :=
  (rules.map (fun r => ruleSpans r text)).flatten

/-- The per-position formats of a block, as left by setFormat calls. -/
def Formats : Type := Nat → Option Style

/-- The cleared format state Qt establishes before highlightBlock runs. -/
def clearedFormats : Formats := fun _ => none

/-- One setFormat call: paint positions [start, start+len) with the style,
overwriting whatever was there. -/
def applySpanF (f : Formats) (s : Span) : Formats :=
  fun p => if s.start ≤ p ∧ p < s.start + s.len then some s.style else f p

/-- One invocation of highlightBlock on a block whose formats currently are
prevFormats: Qt clears the block's formats, then the rule loop issues its
setFormat calls in order.  The previous formats are discarded, which is why
the parameter is unused. -/
def highlightBlockRun (rules : List Rule) (text : List Char) (prevFormats : Formats) : Formats :=
  (highlight rules text).foldl applySpanF clearedFormats

/-- The final style of position p after highlighting a fresh line. -/
def styleAt (rules : List Rule) (text : List Char) (p : Nat) : Option Style :=
  highlightBlockRun rules text clearedFormats p

/-- Whether a span covers position p. -/
def coversB (s : Span) (p : Nat) : Bool :=
  decide (s.start ≤ p) && decide (p < s.start + s.len)

/-- The style of the last-applied span covering p, if any — the claim-side
description of destructive last-wins application. -/
def lastCoveringStyle (spans : List Span) (p : Nat) : Option Style :=
  match spans.reverse.find? (fun s => coversB s p) with
  | some s => some s.style
  | none => none

/-- A keyword occurrence with word boundaries on both sides: the claim-side
notion of a keyword token appearing in a line (kw occurs literally at i, the
character before it, if any, is a non-word character, and so is the
character after it). -/
def occursAsWord (kw text : List Char) (i : Nat) : Bool :=
  kw.isPrefixOf (text.drop i)
    && (if i = 0 then true else !(isWordAt text (i - 1)))
    && !(isWordAt text (i + kw.length))

/-- Python str.isspace characters relevant to ASCII source lines (the set
str.strip removes). -/
def pyIsSpaceChar (c : Char) : Bool :=
  c = ' ' || c = '\t' || c = '\n' || c = '\r' || c = Char.ofNat 11 || c = Char.ofNat 12

/-- A keyword occurrence bounded by whitespace (or a line edge) on both
sides. -/
def whitespaceBounded (kw text : List Char) (i : Nat) : Bool :=
  (if i = 0 then true
   else match text.get? (i - 1) with
        | some c => pyIsSpaceChar c
        | none => true)
    && (match text.get? (i + kw.length) with
        | some c => pyIsSpaceChar c
        | none => true)

/-- Python line.lstrip(' '): drop the leading run of literal spaces. -/
def pyLstripSpaces (l : List Char) : List Char := l.dropWhile (fun c => c = ' ')

/-- Python line.strip(): drop leading and trailing whitespace. -/
def pyStrip (l : List Char) : List Char :=
  ((l.dropWhile pyIsSpaceChar).reverse.dropWhile pyIsSpaceChar).reverse

/-- Python stripped.endswith(an opening brace). -/
def endsWithOpenBrace (l : List Char) : Bool :=
  match l.getLast? with
  | some c => c = '\x7b'
  | none => false

/-- The indent computation of CodeEditor.keyPressEvent on the Return key:
indent = len(line) - len(line.lstrip(' ')); if line.strip() ends with an
opening brace, indent += 4; the inserted text is indent spaces. -/
def computeIndent (line : List Char) : List Char :=
  let indent := line.length - (pyLstripSpaces line).length
  let indent := if endsWithOpenBrace (pyStrip line) then indent + 4 else indent
  List.replicate indent ' '

/-- Claim-side count of the leading literal space characters of a line. -/
def leadingSpaceCount (line : List Char) : Nat :=
  (line.takeWhile (fun c => c = ' ')).length

/-- Modelled from the spec: the repository also contains a C#-editor twin of
this file, not present under src/, whose grammar additionally has a comment
rule matching from a double slash to end of line, applied after the keyword
rules (spec sections 4.1 and 8).  This rule models that missing grammar
entry. -/
def commentRule : Rule := ⟨Pattern.lineComment, Style.comment⟩

/-- Modelled from the spec: the rule table of the repository's second
(C#-like) grammar, absent from src/ — keyword rules first, then the string
rule, then the comment rule, so that the comment rule is applied after any
keyword rule (spec section 8's destructive-overlap test). -/
def csharpLikeRules : List Rule := keywordRules ++ [stringRule, commentRule]

/-- The spec's two-string-literals test line. -/
def demoLineC1 : List Char := ("string a = \"foo\"; string b = \"bar\";").data

/-- The spec's comment test line. -/
def commentLineC3 : List Char := ("// int x = 5;").data

/-! ### Helper lemmas: positions, first/last occurrence, counting -/

lemma getq_some_lt {l : List Char} {i : Nat} {a : Char} (h : l.get? i = some a) :
    i < l.length := by
  rcases List.get?_eq_some.mp h with ⟨h1, _⟩
  exact h1

lemma firstIndexOf_some {c : Char} : ∀ {l : List Char} {f : Nat},
    firstIndexOf c l = some f →
    l.get? f = some c ∧ ∀ j, j < f → l.get? j ≠ some c := by
  intro l
  induction l with
  | nil => intro f h; simp [firstIndexOf] at h
  | cons a rest ih =>
    intro f h
    by_cases hac : a = c
    · subst hac
      simp [firstIndexOf] at h
      subst h
      exact ⟨rfl, fun j hj => by omega⟩
    · simp [firstIndexOf, hac] at h
      rcases hmap : firstIndexOf c rest with _ | f'
      · rw [hmap] at h; simp at h
      · rw [hmap] at h; simp at h
        rcases ih hmap with ⟨h1, h2⟩
        subst h
        refine ⟨by simpa using h1, ?_⟩
        intro j hj
        cases j with
        | zero => simpa using hac
        | succ t =>
          have := h2 t (by omega)
          simpa using this

lemma firstIndexOf_none {c : Char} : ∀ {l : List Char},
    firstIndexOf c l = none → ∀ j, l.get? j ≠ some c := by
  intro l
  induction l with
  | nil => intro _ j; simp
  | cons a rest ih =>
    intro h j
    by_cases hac : a = c
    · subst hac; simp [firstIndexOf] at h
    · simp [firstIndexOf, hac] at h
      rcases hmap : firstIndexOf c rest with _ | f'
      · cases j with
        | zero => simpa using hac
        | succ t => simpa using ih hmap t
      · rw [hmap] at h; simp at h

lemma lastIndexOf_none {c : Char} : ∀ {l : List Char},
    lastIndexOf c l = none → ∀ j, l.get? j ≠ some c := by
  intro l
  induction l with
  | nil => intro _ j; simp
  | cons a rest ih =>
    intro h j
    rcases hrest : lastIndexOf c rest with _ | r'
    · simp [lastIndexOf, hrest] at h
      cases j with
      | zero => simpa using h
      | succ t => simpa using ih hrest t
    · simp [lastIndexOf, hrest] at h

lemma lastIndexOf_some {c : Char} : ∀ {l : List Char} {r : Nat},
    lastIndexOf c l = some r →
    l.get? r = some c ∧ ∀ j, r < j → l.get? j ≠ some c := by
  intro l
  induction l with
  | nil => intro r h; simp [lastIndexOf] at h
  | cons a rest ih =>
    intro r h
    rcases hrest : lastIndexOf c rest with _ | r'
    · simp [lastIndexOf, hrest] at h
      rcases h with ⟨hac, hr⟩
      subst hr; subst hac
      refine ⟨rfl, ?_⟩
      intro j hj
      cases j with
      | zero => omega
      | succ t => simpa using lastIndexOf_none hrest t
    · simp [lastIndexOf, hrest] at h
      subst h
      rcases ih hrest with ⟨h1, h2⟩
      refine ⟨by simpa using h1, ?_⟩
      intro j hj
      cases j with
      | zero => omega
      | succ t => simpa using h2 t (by omega)

lemma lastIndexOf_eq_some_of {c : Char} : ∀ {l : List Char} {t : Nat},
    l.get? t = some c → (∀ j, t < j → l.get? j ≠ some c) →
    lastIndexOf c l = some t := by
  intro l
  induction l with
  | nil => intro t h _; simp at h
  | cons a rest ih =>
    intro t h hup
    cases t with
    | zero =>
      have hac : a = c := by simpa using h
      have hnone : lastIndexOf c rest = none := by
        rcases hrest : lastIndexOf c rest with _ | r'
        · rfl
        · exfalso
          rcases lastIndexOf_some hrest with ⟨h1, _⟩
          exact hup (r' + 1) (by omega) (by simpa using h1)
      simp [lastIndexOf, hnone, hac]
    | succ s =>
      have hrest : lastIndexOf c rest = some s := by
        refine ih (by simpa using h) ?_
        intro j hj
        have := hup (j + 1) (by omega)
        simpa using this
      simp [lastIndexOf, hrest]

lemma countCh_pos_of_getq {c : Char} : ∀ {l : List Char} {j : Nat},
    l.get? j = some c → 1 ≤ countCh c l := by
  intro l
  induction l with
  | nil => intro j h; simp at h
  | cons a rest ih =>
    intro j h
    cases j with
    | zero =>
      have : a = c := by simpa using h
      simp [countCh, this]
    | succ t =>
      have := ih (j := t) (by simpa using h)
      simp [countCh]
      omega

lemma countCh_exists_of_pos {c : Char} : ∀ {l : List Char},
    1 ≤ countCh c l → ∃ j, l.get? j = some c := by
  intro l
  induction l with
  | nil => intro h; simp [countCh] at h
  | cons a rest ih =>
    intro h
    by_cases hac : a = c
    · exact ⟨0, by simpa using hac⟩
    · simp [countCh, hac] at h
      rcases ih h with ⟨j, hj⟩
      exact ⟨j + 1, by simpa using hj⟩

lemma countCh_two_of_two_pos {c : Char} : ∀ {l : List Char} (j1 j2 : Nat),
    j1 < j2 → l.get? j1 = some c → l.get? j2 = some c → 2 ≤ countCh c l := by
  intro l
  induction l with
  | nil => intro j1 j2 _ h _; simp at h
  | cons a rest ih =>
    intro j1 j2 hlt h1 h2
    cases j1 with
    | zero =>
      have hac : a = c := by simpa using h1
      cases j2 with
      | zero => omega
      | succ t2 =>
        have := countCh_pos_of_getq (l := rest) (j := t2) (by simpa using h2)
        simp [countCh, hac]
        omega
    | succ t1 =>
      cases j2 with
      | zero => omega
      | succ t2 =>
        have := ih t1 t2 (by omega) (by simpa using h1) (by simpa using h2)
        simp [countCh]
        omega

/-! ### Helper lemmas: the match-at semantics and the globalMatch scan -/

lemma isWordAt_of_ge {text : List Char} {j : Nat} (h : text.length ≤ j) :
    isWordAt text j = false := by
  unfold isWordAt
  rw [List.get?_eq_none.mpr h]

lemma matchAt_some_le {p : Pattern} {text : List Char} {i n : Nat}
    (h : matchAt p text i = some n) : i + n ≤ text.length := by
  cases p with
  | word kw =>
    simp only [matchAt] at h
    split at h
    case isTrue hcond =>
      injection h with hn
      subst hn
      simp only [Bool.and_eq_true] at hcond
      rcases hcond with ⟨⟨hb1, hpre⟩, _⟩
      have hp : kw <+: text.drop i := List.isPrefixOf_iff_prefix.mp hpre
      have hlen : kw.length ≤ (text.drop i).length := hp.length_le
      rw [List.length_drop] at hlen
      by_cases hkw : kw = []
      · subst hkw
        simp only [List.length_nil, Nat.add_zero]
        by_contra hgt
        push_neg at hgt
        have h1 : isWordAt text i = false := isWordAt_of_ge (by omega)
        have h2 : (if i = 0 then false else isWordAt text (i - 1)) = false := by
          split
          · rfl
          · exact isWordAt_of_ge (by omega)
        unfold wordBoundary at hb1
        rw [h1, h2] at hb1
        simp at hb1
      · have : 1 ≤ kw.length := by
          cases kw with
          | nil => exact absurd rfl hkw
          | cons a t => simp
        omega
    case isFalse h' => exact absurd h (by simp)
  | quotedGreedy =>
    simp only [matchAt] at h
    split at h
    case isTrue hq =>
      rcases hl : lastIndexOf '"' (text.drop (i + 1)) with _ | r
      · rw [hl] at h; exact absurd h (by simp)
      · rw [hl] at h
        injection h with hn
        subst hn
        rcases lastIndexOf_some hl with ⟨h1, _⟩
        have hr : r < (text.drop (i + 1)).length := getq_some_lt h1
        rw [List.length_drop] at hr
        have hi2 : i < text.length := getq_some_lt hq
        omega
    case isFalse h' => exact absurd h (by simp)
  | lineComment =>
    simp only [matchAt] at h
    split at h
    case isTrue hq =>
      injection h with hn
      subst hn
      simp only [Bool.and_eq_true, decide_eq_true_eq] at hq
      have : i < text.length := getq_some_lt hq.1
      omega
    case isFalse h' => exact absurd h (by simp)

lemma scan_no_match {p : Pattern} {text : List Char} :
    ∀ (fuel i : Nat), (∀ j, i ≤ j → matchAt p text j = none) →
    scan p text i fuel = [] := by
  intro fuel
  induction fuel with
  | zero => intro i _; rfl
  | succ f ih =>
    intro i h
    have h0 : matchAt p text i = none := h i (Nat.le_refl i)
    simp only [scan, h0]
    split
    · exact ih (i + 1) (fun j hj => h j (by omega))
    · rfl

lemma scan_hit {p : Pattern} {text : List Char} {i n : Nat} (fuel : Nat)
    (h : matchAt p text i = some n) :
    scan p text i (fuel + 1) = (i, n) :: scan p text (i + n) fuel := by
  simp only [scan, h]

lemma scan_skip_range {p : Pattern} {text : List Char} :
    ∀ (k fuel i : Nat),
      (∀ j, i ≤ j → j < i + k → matchAt p text j = none) →
      i + k ≤ text.length →
      scan p text i (k + fuel) = scan p text (i + k) fuel := by
  intro k
  induction k with
  | zero => intro fuel i _ _; simp
  | succ m ih =>
    intro fuel i h hlen
    have h0 : matchAt p text i = none := h i (Nat.le_refl i) (by omega)
    have hi : i < text.length := by omega
    have e1 : m + 1 + fuel = (m + fuel) + 1 := by omega
    rw [e1]
    simp only [scan, h0, if_pos hi]
    have e2 : i + (m + 1) = (i + 1) + m := by omega
    rw [e2]
    exact ih fuel (i + 1) (fun j hj1 hj2 => h j (by omega) (by omega)) (by omega)

lemma scan_mem {p : Pattern} {text : List Char} :
    ∀ (fuel i s n : Nat), (s, n) ∈ scan p text i fuel →
    matchAt p text s = some n ∧ i ≤ s := by
  intro fuel
  induction fuel with
  | zero => intro i s n h; simp [scan] at h
  | succ f ih =>
    intro i s n h
    rcases hm : matchAt p text i with _ | m
    · simp only [scan, hm] at h
      split at h
      · rcases ih (i + 1) s n h with ⟨h1, h2⟩
        exact ⟨h1, by omega⟩
      · simp at h
    · simp only [scan, hm, List.mem_cons] at h
      rcases h with h | h
      · injection h with e1 e2
        subst e1; subst e2
        exact ⟨hm, Nat.le_refl s⟩
      · rcases ih (i + m) s n h with ⟨h1, h2⟩
        exact ⟨h1, by omega⟩

lemma findMatches_mem {p : Pattern} {text : List Char} {s n : Nat}
    (h : (s, n) ∈ findMatches p text) : matchAt p text s = some n :=
  (scan_mem (text.length + 1) 0 s n h).1

lemma findMatches_nil {p : Pattern} {text : List Char}
    (h : ∀ j, matchAt p text j = none) : findMatches p text = [] :=
  scan_no_match (text.length + 1) 0 (fun j _ => h j)

lemma findMatches_singleton {p : Pattern} {text : List Char} {i n : Nat}
    (hi : matchAt p text i = some n) (hn : 1 ≤ n)
    (huniq : ∀ j, j ≠ i → matchAt p text j = none) :
    findMatches p text = [(i, n)] := by
  have hbound := matchAt_some_le hi
  unfold findMatches
  have e : text.length + 1 = i + ((text.length - i) + 1) := by omega
  rw [e]
  rw [scan_skip_range i ((text.length - i) + 1) 0
        (fun j _ hj => huniq j (by omega)) (by omega)]
  rw [Nat.zero_add]
  rw [scan_hit (text.length - i) hi]
  rw [scan_no_match (text.length - i) (i + n) (fun j hj => huniq j (by omega))]

/-! ### Helper lemmas: keyword (word-boundary) matches -/

lemma prefixAt_get {kw text : List Char} {i t : Nat}
    (hpre : kw.isPrefixOf (text.drop i) = true) (ht : t < kw.length) :
    text.get? (i + t) = kw.get? t := by
  rcases List.isPrefixOf_iff_prefix.mp hpre with ⟨s, hs⟩
  rw [← List.get?_drop, ← hs, List.get?_append ht]

lemma getq_of_lt {kw : List Char} {t : Nat} (ht : t < kw.length) :
    ∃ c, kw.get? t = some c := by
  rcases hk : kw.get? t with _ | c
  · rw [List.get?_eq_none] at hk; omega
  · exact ⟨c, rfl⟩

lemma isWordAt_of_prefix {kw text : List Char} {i t : Nat}
    (hw : ∀ c ∈ kw, isWordChar c = true)
    (hpre : kw.isPrefixOf (text.drop i) = true) (ht : t < kw.length) :
    isWordAt text (i + t) = true := by
  rcases getq_of_lt ht with ⟨c, hc⟩
  have h1 : text.get? (i + t) = some c := by rw [prefixAt_get hpre ht, hc]
  unfold isWordAt
  rw [h1]
  exact hw c (List.get?_mem hc)

lemma matchAt_word_of_occurs {kw text : List Char} {i : Nat}
    (hne : kw ≠ []) (hw : ∀ c ∈ kw, isWordChar c = true)
    (ho : occursAsWord kw text i = true) :
    matchAt (Pattern.word kw) text i = some kw.length := by
  unfold occursAsWord at ho
  simp only [Bool.and_eq_true] at ho
  rcases ho with ⟨⟨hpre, hleft⟩, hright⟩
  have hkpos : 1 ≤ kw.length := by
    cases kw with
    | nil => exact absurd rfl hne
    | cons a t => simp
  have hcur : isWordAt text i = true := by
    have := isWordAt_of_prefix hw hpre (t := 0) (by omega)
    simpa using this
  have hlast : isWordAt text (i + kw.length - 1) = true := by
    have := isWordAt_of_prefix hw hpre (t := kw.length - 1) (by omega)
    have e : i + (kw.length - 1) = i + kw.length - 1 := by omega
    rwa [e] at this
  have hb1 : wordBoundary text i = true := by
    unfold wordBoundary
    rw [hcur]
    split
    · rfl
    case isFalse hi0 =>
      have : isWordAt text (i - 1) = false := by
        rcases h : isWordAt text (i - 1) with _ | _
        · rfl
        · rw [if_neg hi0, h] at hleft; simp at hleft
      rw [this]
      rfl
  have hb2 : wordBoundary text (i + kw.length) = true := by
    unfold wordBoundary
    have hne0 : ¬ (i + kw.length = 0) := by omega
    rw [if_neg hne0, hlast]
    rcases h : isWordAt text (i + kw.length) with _ | _
    · rfl
    · rw [h] at hright; simp at hright
  simp only [matchAt, hb1, hpre, hb2]
  rfl

lemma occurs_of_matchAt_word {kw text : List Char} {i n : Nat}
    (hw : ∀ c ∈ kw, isWordChar c = true)
    (hm : matchAt (Pattern.word kw) text i = some n) :
    n = kw.length ∧ (kw = [] ∨ occursAsWord kw text i = true) := by
  simp only [matchAt] at hm
  split at hm
  case isTrue hcond =>
    injection hm with hn
    simp only [Bool.and_eq_true] at hcond
    rcases hcond with ⟨⟨hb1, hpre⟩, hb2⟩
    refine ⟨hn.symm, ?_⟩
    by_cases hne : kw = []
    · exact Or.inl hne
    · right
      have hkpos : 1 ≤ kw.length := by
        cases kw with
        | nil => exact absurd rfl hne
        | cons a t => simp
      have hcur : isWordAt text i = true := by
        have := isWordAt_of_prefix hw hpre (t := 0) (by omega)
        simpa using this
      have hlast : isWordAt text (i + kw.length - 1) = true := by
        have := isWordAt_of_prefix hw hpre (t := kw.length - 1) (by omega)
        have e : i + (kw.length - 1) = i + kw.length - 1 := by omega
        rwa [e] at this
      have hleft : (if i = 0 then true else !(isWordAt text (i - 1))) = true := by
        split
        · rfl
        case isFalse hi0 =>
          unfold wordBoundary at hb1
          rw [if_neg hi0, hcur] at hb1
          rcases h : isWordAt text (i - 1) with _ | _
          · rfl
          · rw [h] at hb1; simp at hb1
      have hright : (!(isWordAt text (i + kw.length))) = true := by
        unfold wordBoundary at hb2
        have hne0 : ¬ (i + kw.length = 0) := by omega
        rw [if_neg hne0, hlast] at hb2
        rcases h : isWordAt text (i + kw.length) with _ | _
        · rfl
        · rw [h] at hb2; simp at hb2
      unfold occursAsWord
      rw [hpre, hleft, hright]
      rfl
  case isFalse h' => exact absurd hm (by simp)

lemma occursAsWord_ge_len {kw text : List Char} {i : Nat}
    (hne : kw ≠ []) (h : text.length ≤ i) : occursAsWord kw text i = false := by
  unfold occursAsWord
  have hd : text.drop i = [] := by
    rw [List.drop_eq_nil_iff_le]
    exact h
  rw [hd]
  cases kw with
  | nil => exact absurd rfl hne
  | cons a t => rfl

lemma wordMatches_nil {kw text : List Char}
    (hw : ∀ c ∈ kw, isWordChar c = true)
    (hnoocc : ∀ i, occursAsWord kw text i = false) (hne : kw ≠ []) :
    findMatches (Pattern.word kw) text = [] := by
  apply findMatches_nil
  intro j
  rcases hm : matchAt (Pattern.word kw) text j with _ | n
  · rfl
  · exfalso
    rcases occurs_of_matchAt_word hw hm with ⟨_, ho⟩
    rcases ho with ho | ho
    · exact hne ho
    · rw [hnoocc j] at ho
      cases ho

lemma wordMatches_singleton {kw text : List Char} {i : Nat}
    (hne : kw ≠ []) (hw : ∀ c ∈ kw, isWordChar c = true)
    (ho : occursAsWord kw text i = true)
    (huniq : ∀ j, occursAsWord kw text j = true → j = i) :
    findMatches (Pattern.word kw) text = [(i, kw.length)] := by
  have hkpos : 1 ≤ kw.length := by
    cases kw with
    | nil => exact absurd rfl hne
    | cons a t => simp
  apply findMatches_singleton (matchAt_word_of_occurs hne hw ho) hkpos
  intro j hj
  rcases hm : matchAt (Pattern.word kw) text j with _ | n
  · rfl
  · exfalso
    rcases occurs_of_matchAt_word hw hm with ⟨_, hoj⟩
    rcases hoj with hoj | hoj
    · exact hne hoj
    · exact hj (huniq j hoj)

/-! ### Helper lemmas: the greedy string match -/

lemma matchAt_quoted_first {text : List Char} {f r : Nat}
    (hf1 : text.get? f = some '"')
    (hr1 : text.get? r = some '"')
    (hr2 : ∀ j, r < j → text.get? j ≠ some '"')
    (hfr : f < r) :
    matchAt Pattern.quotedGreedy text f = some (r + 1 - f) := by
  have hdrop : lastIndexOf '"' (text.drop (f + 1)) = some (r - (f + 1)) := by
    apply lastIndexOf_eq_some_of
    · rw [List.get?_drop]
      have e : f + 1 + (r - (f + 1)) = r := by omega
      rw [e]
      exact hr1
    · intro j hj
      rw [List.get?_drop]
      exact hr2 (f + 1 + j) (by omega)
  simp only [matchAt, if_pos hf1, hdrop]
  have e : r - (f + 1) + 2 = r + 1 - f := by omega
  rw [e]

lemma stringMatches_eq {text : List Char} {f r : Nat}
    (hf : firstIndexOf '"' text = some f)
    (hr : lastIndexOf '"' text = some r)
    (hfr : f < r) :
    findMatches Pattern.quotedGreedy text = [(f, r + 1 - f)] := by
  rcases firstIndexOf_some hf with ⟨hf1, hf2⟩
  rcases lastIndexOf_some hr with ⟨hr1, hr2⟩
  have hm := matchAt_quoted_first hf1 hr1 hr2 hfr
  have hrlen : r < text.length := getq_some_lt hr1
  unfold findMatches
  have e : text.length + 1 = f + ((text.length - f) + 1) := by omega
  rw [e]
  rw [scan_skip_range f ((text.length - f) + 1) 0 ?noqLow (by omega)]
  case noqLow =>
    intro j _ hj
    simp only [matchAt]
    rw [if_neg (hf2 j (by omega))]
  rw [Nat.zero_add]
  rw [scan_hit (text.length - f) hm]
  have e2 : f + (r + 1 - f) = r + 1 := by omega
  rw [e2]
  rw [scan_no_match (text.length - f) (r + 1) ?noqHigh]
  case noqHigh =>
    intro j hj
    simp only [matchAt]
    rw [if_neg (hr2 j (by omega))]

lemma stringMatches_nil {text : List Char}
    (h : countCh '"' text ≤ 1) :
    findMatches Pattern.quotedGreedy text = [] := by
  apply findMatches_nil
  intro j
  rcases hm : matchAt Pattern.quotedGreedy text j with _ | n
  · rfl
  · exfalso
    simp only [matchAt] at hm
    split at hm
    case isTrue hq =>
      rcases hl : lastIndexOf '"' (text.drop (j + 1)) with _ | r
      · rw [hl] at hm; exact absurd hm (by simp)
      · rcases lastIndexOf_some hl with ⟨h1, _⟩
        rw [List.get?_drop] at h1
        have := countCh_two_of_two_pos j (j + 1 + r) (by omega) hq h1
        omega
    case isFalse h' => exact absurd hm (by simp)

lemma countCh_two_exists {c : Char} : ∀ {l : List Char},
    2 ≤ countCh c l →
    ∃ j1 j2, j1 < j2 ∧ l.get? j1 = some c ∧ l.get? j2 = some c := by
  intro l
  induction l with
  | nil => intro h; simp [countCh] at h
  | cons a rest ih =>
    intro h
    by_cases hac : a = c
    · have hrest : 1 ≤ countCh c rest := by
        simp [countCh, hac] at h
        omega
      rcases countCh_exists_of_pos hrest with ⟨j, hj⟩
      exact ⟨0, j + 1, by omega, by simpa using hac, by simpa using hj⟩
    · have hrest : 2 ≤ countCh c rest := by
        simp [countCh, hac] at h
        exact h
      rcases ih hrest with ⟨j1, j2, hlt, h1, h2⟩
      exact ⟨j1 + 1, j2 + 1, by omega, by simpa using h1, by simpa using h2⟩

lemma exists_first_last_of_two {text : List Char}
    (h2 : 2 ≤ countCh '"' text) :
    ∃ f r, firstIndexOf '"' text = some f ∧ lastIndexOf '"' text = some r ∧ f < r := by
  rcases countCh_two_exists h2 with ⟨j1, j2, hlt, hq1, hq2⟩
  rcases hfo : firstIndexOf '"' text with _ | f
  · exact absurd hq1 (firstIndexOf_none hfo j1)
  rcases hro : lastIndexOf '"' text with _ | r
  · exact absurd hq1 (lastIndexOf_none hro j1)
  refine ⟨f, r, rfl, rfl, ?_⟩
  rcases firstIndexOf_some hfo with ⟨_, hf2⟩
  rcases lastIndexOf_some hro with ⟨_, hr2⟩
  have l1 : f ≤ j1 := by
    by_contra hlt1
    push_neg at hlt1
    exact hf2 j1 hlt1 hq1
  have l2 : j2 ≤ r := by
    by_contra hgt
    push_neg at hgt
    exact hr2 j2 hgt hq2
  omega

/-! ### Helper lemmas: format application is last-wins -/

lemma coversB_iff {s : Span} {p : Nat} :
    coversB s p = true ↔ (s.start ≤ p ∧ p < s.start + s.len) := by
  simp [coversB]

lemma foldl_applySpanF : ∀ (spans : List Span) (f0 : Formats) (p : Nat),
    spans.foldl applySpanF f0 p = (lastCoveringStyle spans p).or (f0 p) := by
  intro spans
  induction spans with
  | nil =>
    intro f0 p
    simp [lastCoveringStyle, List.find?, Option.or]
  | cons s rest ih =>
    intro f0 p
    rw [List.foldl_cons, ih (applySpanF f0 s) p]
    unfold lastCoveringStyle
    rw [List.reverse_cons, List.find?_append]
    rcases hfind : rest.reverse.find? (fun t => coversB t p) with _ | t
    · rcases hc : coversB s p with _ | _
      · have h1 : List.find? (fun t => coversB t p) [s] = none := by
          simp [List.find?, hc]
        rw [h1]
        have h2 : applySpanF f0 s p = f0 p := by
          unfold applySpanF
          rw [if_neg]
          intro hcond
          have := coversB_iff.mpr hcond
          rw [hc] at this
          cases this
        rw [h2]
        rfl
      · have h1 : List.find? (fun t => coversB t p) [s] = some s := by
          simp [List.find?, hc]
        rw [h1]
        have h2 : applySpanF f0 s p = some s.style := by
          unfold applySpanF
          rw [if_pos (coversB_iff.mp hc)]
        rw [h2]
        rfl
    · rfl

/-! ### Helper lemmas: the indent computation -/

lemma length_sub_dropWhile (q : Char → Bool) (l : List Char) :
    l.length - (l.dropWhile q).length = (l.takeWhile q).length := by
  have h := congrArg List.length (List.takeWhile_append_dropWhile q l)
  rw [List.length_append] at h
  omega

/-! ### Helper lemmas: assembling whole rule tables -/

lemma javaKeywords_facts :
    ∀ kw ∈ javaKeywords, kw.data ≠ [] ∧ ∀ c ∈ kw.data, isWordChar c = true := by
  decide

lemma javaKeywords_nodup : javaKeywords.Nodup := by decide

lemma keywordSpans_nil {text : List Char} : ∀ (kws : List String),
    (∀ k ∈ kws, k.data ≠ [] ∧ ∀ c ∈ k.data, isWordChar c = true) →
    (∀ k ∈ kws, ∀ j, occursAsWord k.data text j = false) →
    (kws.map (fun k => ruleSpans ⟨Pattern.word k.data, Style.keyword⟩ text)).flatten = [] := by
  intro kws
  induction kws with
  | nil => intro _ _; rfl
  | cons k rest ih =>
    intro hfacts hnoocc
    rcases hfacts k (List.mem_cons_self k rest) with ⟨hne, hw⟩
    have hhead : ruleSpans ⟨Pattern.word k.data, Style.keyword⟩ text = [] := by
      unfold ruleSpans
      rw [wordMatches_nil hw (hnoocc k (List.mem_cons_self k rest)) hne]
      rfl
    rw [List.map_cons, List.flatten_cons, hhead, List.nil_append]
    exact ih (fun k' hk' => hfacts k' (List.mem_cons_of_mem k hk'))
      (fun k' hk' => hnoocc k' (List.mem_cons_of_mem k hk'))

lemma keywordSpans_eq {text : List Char} {kw : String} {i : Nat} :
    ∀ (kws : List String), kws.Nodup →
    (∀ k ∈ kws, k.data ≠ [] ∧ ∀ c ∈ k.data, isWordChar c = true) →
    kw ∈ kws →
    occursAsWord kw.data text i = true →
    (∀ (kw' : String) (i' : Nat), kw' ∈ kws → occursAsWord kw'.data text i' = true →
       kw' = kw ∧ i' = i) →
    (kws.map (fun k => ruleSpans ⟨Pattern.word k.data, Style.keyword⟩ text)).flatten
      = [⟨i, kw.data.length, Style.keyword⟩] := by
  intro kws
  induction kws with
  | nil => intro _ _ hmem; cases hmem
  | cons k rest ih =>
    intro hnd hfacts hmem ho huniq
    have hnotmem : k ∉ rest := (List.nodup_cons.mp hnd).1
    rcases List.mem_cons.mp hmem with hk | hk
    · subst hk
      rcases hfacts kw (List.mem_cons_self kw rest) with ⟨hne, hw⟩
      have hhead : ruleSpans ⟨Pattern.word kw.data, Style.keyword⟩ text
          = [⟨i, kw.data.length, Style.keyword⟩] := by
        unfold ruleSpans
        rw [wordMatches_singleton hne hw ho
          (fun j hj => (huniq kw j (List.mem_cons_self kw rest) hj).2)]
        rfl
      have hrest : (rest.map (fun k => ruleSpans ⟨Pattern.word k.data, Style.keyword⟩ text)).flatten = [] := by
        apply keywordSpans_nil rest
          (fun k' hk' => hfacts k' (List.mem_cons_of_mem kw hk'))
        intro k' hk' j
        rcases hocc : occursAsWord k'.data text j with _ | _
        · rfl
        · exfalso
          have := (huniq k' j (List.mem_cons_of_mem kw hk') hocc).1
          subst this
          exact hnotmem hk'
      rw [List.map_cons, List.flatten_cons, hhead, hrest, List.append_nil]
    · have hkne : k ≠ kw := by
        intro he
        subst he
        exact hnotmem hk
      rcases hfacts k (List.mem_cons_self k rest) with ⟨hne, hw⟩
      have hhead : ruleSpans ⟨Pattern.word k.data, Style.keyword⟩ text = [] := by
        unfold ruleSpans
        rw [wordMatches_nil hw ?noocc hne]
        · rfl
        case noocc =>
          intro j
          rcases hocc : occursAsWord k.data text j with _ | _
          · rfl
          · exfalso
            exact hkne (huniq k j (List.mem_cons_self k rest) hocc).1
      rw [List.map_cons, List.flatten_cons, hhead, List.nil_append]
      exact ih (List.nodup_cons.mp hnd).2
        (fun k' hk' => hfacts k' (List.mem_cons_of_mem k hk'))
        hk ho
        (fun k' i' hk' ho' => huniq k' i' (List.mem_cons_of_mem k hk') ho')

lemma applySpanF_covered {f0 : Formats} {s : Span} {p : Nat}
    (h1 : s.start ≤ p) (h2 : p < s.start + s.len) :
    applySpanF f0 s p = some s.style := by
  unfold applySpanF
  rw [if_pos ⟨h1, h2⟩]

/-! ### Claim theorems -/

/-- C1: on every line containing two or more double-quote characters the
string rule produces exactly one string-styled span, starting at the first
double quote of the line and ending at the last one (greedy match); and on
the spec's test line with two separate string literals the whole rule table
emits a single string span from the first to the last quote (offset 11,
length 23), covering both literals and the text between them, not two
spans. -/
theorem C1_string_rule_greedy_single_span :
    (∀ text : List Char, 2 ≤ countCh '"' text →
      ∃ f r, firstIndexOf '"' text = some f ∧ lastIndexOf '"' text = some r ∧
        f < r ∧ ruleSpans stringRule text = [⟨f, r + 1 - f, Style.str⟩])
    ∧ highlight javaRules demoLineC1 = [⟨11, 23, Style.str⟩] := by
  constructor
  · intro text h2
    rcases exists_first_last_of_two h2 with ⟨f, r, hf, hr, hfr⟩
    refine ⟨f, r, hf, hr, hfr, ?_⟩
    unfold ruleSpans
    rw [show stringRule.pattern = Pattern.quotedGreedy from rfl]
    rw [stringMatches_eq hf hr hfr]
    rfl
  · decide

/-- Witness for C1: the spec's test line has two or more quotes, and the
string rule's span runs from its first quote to its last. -/
theorem C1_string_rule_greedy_single_span_witness :
    2 ≤ countCh '"' demoLineC1 ∧
    (∃ f r, firstIndexOf '"' demoLineC1 = some f ∧
      lastIndexOf '"' demoLineC1 = some r ∧ f < r ∧
      ruleSpans stringRule demoLineC1 = [⟨f, r + 1 - f, Style.str⟩]) :=
  ⟨by decide, C1_string_rule_greedy_single_span.1 demoLineC1 (by decide)⟩

/-- C2: the computed indent is a run of spaces whose length is the number of
leading literal space characters of the preceding line, plus 4 exactly when
the line stripped of leading and trailing whitespace ends in an opening
brace; a tab character ends the leading-space count (contributing nothing);
an empty preceding line yields an empty indent. -/
theorem C2_compute_indent_characterization :
    (∀ line : List Char,
      computeIndent line =
        List.replicate
          (leadingSpaceCount line +
            (if endsWithOpenBrace (pyStrip line) = true then 4 else 0)) ' ')
    ∧ (∀ rest : List Char, leadingSpaceCount ('\t' :: rest) = 0)
    ∧ computeIndent [] = [] := by
  refine ⟨?_, ?_, by decide⟩
  · intro line
    have e := length_sub_dropWhile (fun c => c = ' ') line
    by_cases hbr : endsWithOpenBrace (pyStrip line) = true
    · simp only [computeIndent, pyLstripSpaces, leadingSpaceCount, hbr, if_pos, if_true]
      rw [e]
    · simp only [computeIndent, pyLstripSpaces, leadingSpaceCount, hbr, if_false]
      rw [e]
      simp
  · intro rest
    unfold leadingSpaceCount
    rw [List.takeWhile_cons, if_neg (by decide)]
    rfl

/-- C3 (modelled from the spec, see csharpLikeRules): the grammar contains a
comment rule matching from a double slash to end of line, and on the line
with a commented-out declaration the comment rule emits a span covering the
whole line; the keyword rule still matches the type keyword at offset 3, but
the comment style overwrites it at every position because the comment rule
comes later in the table. -/
theorem C3_comment_rule_covers_line :
    commentRule ∈ csharpLikeRules
    ∧ commentRule.pattern = Pattern.lineComment
    ∧ ruleSpans commentRule commentLineC3 = [⟨0, 13, Style.comment⟩]
    ∧ Span.mk 3 3 Style.keyword ∈ highlight csharpLikeRules commentLineC3
    ∧ ((List.range 13).all fun p =>
        decide (styleAt csharpLikeRules commentLineC3 p = some Style.comment)) = true := by
  refine ⟨by decide, rfl, by decide, by decide, by decide⟩

/-- C4: highlightBlock applies spans destructively in rule-table order: the
final style of every position of every line, under any rule table, is the
style of the last-applied span covering that position (last-wins overwrite,
not a merge and not longest-match resolution). -/
theorem C4_last_applied_span_wins :
    ∀ (rules : List Rule) (text : List Char) (p : Nat),
      styleAt rules text p = lastCoveringStyle (highlight rules text) p := by
  intro rules text p
  unfold styleAt highlightBlockRun
  rw [foldl_applySpanF]
  rcases lastCoveringStyle (highlight rules text) p with _ | st
  · rfl
  · rfl

/-- C5: a line containing exactly one keyword token (one word-boundary
occurrence of one keyword), bounded by whitespace, and matching no other
rule, is highlighted with exactly one span, covering exactly that token,
with the keyword style; and a keyword with no word-boundary occurrence (for
example one occurring only inside a longer identifier) produces no keyword
span at all. -/
theorem C5_unique_keyword_token_single_span :
    (∀ (text : List Char) (kw : String) (i : Nat),
      kw ∈ javaKeywords →
      occursAsWord kw.data text i = true →
      whitespaceBounded kw.data text i = true →
      (∀ kw' ∈ javaKeywords, ∀ i' < text.length,
        occursAsWord kw'.data text i' = true → kw' = kw ∧ i' = i) →
      countCh '"' text ≤ 1 →
      highlight javaRules text = [⟨i, kw.data.length, Style.keyword⟩])
    ∧ (∀ (text : List Char) (kw : String), kw ∈ javaKeywords →
      (∀ i, i < text.length → occursAsWord kw.data text i = false) →
      findMatches (Pattern.word kw.data) text = []) := by
  constructor
  · intro text kw i hkw ho hws huniq hq
    have huniqAll : ∀ (kw' : String) (i' : Nat), kw' ∈ javaKeywords →
        occursAsWord kw'.data text i' = true → kw' = kw ∧ i' = i := by
      intro kw' i' hkw' ho'
      rcases javaKeywords_facts kw' hkw' with ⟨hne', _⟩
      by_cases hlen : i' < text.length
      · exact huniq kw' hkw' i' hlen ho'
      · exfalso
        rw [occursAsWord_ge_len hne' (by omega)] at ho'
        cases ho'
    unfold highlight javaRules
    rw [List.map_append, List.flatten_append]
    have hstr : ([stringRule].map (fun r => ruleSpans r text)).flatten = [] := by
      have : ruleSpans stringRule text = [] := by
        unfold ruleSpans
        rw [show stringRule.pattern = Pattern.quotedGreedy from rfl]
        rw [stringMatches_nil hq]
        rfl
      simp [this]
    rw [hstr, List.append_nil]
    unfold keywordRules
    rw [List.map_map]
    simp only [Function.comp_def]
    exact keywordSpans_eq javaKeywords javaKeywords_nodup javaKeywords_facts hkw ho huniqAll
  · intro text kw hkw hnoocc
    rcases javaKeywords_facts kw hkw with ⟨hne, hw⟩
    apply wordMatches_nil hw ?_ hne
    intro i
    by_cases hlen : i < text.length
    · exact hnoocc i hlen
    · exact occursAsWord_ge_len hne (by omega)

/-- Witness for C5: on a line with exactly one whitespace-bounded keyword
token the highlighter emits exactly the one keyword span over that token. -/
theorem C5_unique_keyword_token_single_span_witness :
    occursAsWord ("if").data (("ab if cd").data) 3 = true ∧
    highlight javaRules (("ab if cd").data) = [⟨3, 2, Style.keyword⟩] :=
  ⟨by decide,
    C5_unique_keyword_token_single_span.1 (("ab if cd").data) "if" 3
      (by decide) (by decide) (by decide) (by decide) (by decide)⟩

/-- C6: a line on which no rule pattern matches (no word-boundary keyword
occurrence and at most one double quote) is highlighted with no spans at
all; in particular the empty line and a line consisting of a single
unterminated double quote produce the empty span sequence, without error. -/
theorem C6_no_match_no_spans :
    (∀ text : List Char,
      (∀ kw ∈ javaKeywords, ∀ i, i < text.length → occursAsWord kw.data text i = false) →
      countCh '"' text ≤ 1 →
      highlight javaRules text = [])
    ∧ highlight javaRules [] = []
    ∧ highlight javaRules ['"'] = [] := by
  refine ⟨?_, by decide, by decide⟩
  intro text hnokw hq
  unfold highlight javaRules
  rw [List.map_append, List.flatten_append]
  have hstr : ([stringRule].map (fun r => ruleSpans r text)).flatten = [] := by
    have : ruleSpans stringRule text = [] := by
      unfold ruleSpans
      rw [show stringRule.pattern = Pattern.quotedGreedy from rfl]
      rw [stringMatches_nil hq]
      rfl
    simp [this]
  rw [hstr, List.append_nil]
  unfold keywordRules
  rw [List.map_map]
  simp only [Function.comp_def]
  refine keywordSpans_nil javaKeywords javaKeywords_facts ?_
  intro kw hkw i
  rcases javaKeywords_facts kw hkw with ⟨hne, _⟩
  by_cases hlen : i < text.length
  · exact hnokw kw hkw i hlen
  · exact occursAsWord_ge_len hne (by omega)

/-- Witness for C6: a line with no keyword token and no quotes gets no
spans. -/
theorem C6_no_match_no_spans_witness :
    countCh '"' (("x + y").data) ≤ 1 ∧
    highlight javaRules (("x + y").data) = [] :=
  ⟨by decide, C6_no_match_no_spans.1 (("x + y").data) (by decide) (by decide)⟩

/-- C7: the indent computed from the preceding line of an if-statement with
a trailing opening brace and 4 leading spaces is exactly 8 spaces (4 base
plus 4 extra), and from a closing-brace line with 4 leading spaces exactly
4 spaces, no extra unit. -/
theorem C7_indent_examples :
    computeIndent (("    if (x) \x7b").data) = List.replicate 8 ' '
    ∧ computeIndent (("    \x7d").data) = List.replicate 4 ' ' := by
  exact ⟨by decide, by decide⟩

/-- C8: highlighting is a pure function of the line text and the rule table:
an invocation of highlightBlock yields the same formats whatever formats the
block carried before the call (Qt clears them first), so invoking it twice
in a row yields identical results with no hidden state across calls. -/
theorem C8_highlight_pure :
    ∀ (rules : List Rule) (text : List Char) (f1 f2 : Formats),
      highlightBlockRun rules text f1 = highlightBlockRun rules text f2 ∧
      highlightBlockRun rules text (highlightBlockRun rules text f1) =
        highlightBlockRun rules text clearedFormats := by
  intro rules text f1 f2
  exact ⟨rfl, rfl⟩

/-- C9: because every keyword rule precedes the string rule in the table, on
a line with at least two double quotes every keyword occurrence found by a
keyword rule that lies strictly between the first and the last quote of the
line ends up with the string style at every one of its positions: the later
string span overwrites the keyword span. -/
theorem C9_keyword_inside_string_overwritten :
    ∀ (text : List Char) (kw : String) (i n f r p : Nat),
      kw ∈ javaKeywords →
      (i, n) ∈ findMatches (Pattern.word kw.data) text →
      firstIndexOf '"' text = some f →
      lastIndexOf '"' text = some r →
      f < i → i + n ≤ r →
      i ≤ p → p < i + n →
      styleAt javaRules text p = some Style.str := by
  intro text kw i n f r p _ _ hf hr hfi hir hip hpn
  have hsr : ruleSpans stringRule text = [⟨f, r + 1 - f, Style.str⟩] := by
    unfold ruleSpans
    rw [show stringRule.pattern = Pattern.quotedGreedy from rfl]
    rw [stringMatches_eq hf hr (by omega)]
    rfl
  unfold styleAt highlightBlockRun highlight javaRules
  rw [List.map_append, List.flatten_append, List.foldl_append]
  have hstr : ([stringRule].map (fun rl => ruleSpans rl text)).flatten
      = [⟨f, r + 1 - f, Style.str⟩] := by
    simp [hsr]
  rw [hstr]
  rw [List.foldl_cons, List.foldl_nil]
  exact applySpanF_covered (show f ≤ p by omega) (show p < f + (r + 1 - f) by omega)

/-- Witness for C9: in a line where a keyword sits between two string
literals' quotes, its positions end up string-styled. -/
theorem C9_keyword_inside_string_overwritten_witness :
    (3 : Nat) ∈ [3] ∧
    styleAt javaRules (("\"x\" if \"y\"").data) 4 = some Style.str :=
  ⟨by decide,
    C9_keyword_inside_string_overwritten (("\"x\" if \"y\"").data) "if" 4 2 0 9 4
      (by decide) (by decide) (by decide) (by decide) (by decide) (by decide)
      (by decide) (by decide)⟩

/-- C10: every span emitted by highlight, on any line under any rule table,
lies within the bounds of the line: its start offset plus its length never
exceeds the line length (start and length are naturals, hence
non-negative). -/
theorem C10_spans_in_bounds :
    ∀ (rules : List Rule) (text : List Char) (s : Span),
      s ∈ highlight rules text → s.start + s.len ≤ text.length := by
  intro rules text s hmem
  unfold highlight at hmem
  rw [List.mem_flatten] at hmem
  rcases hmem with ⟨l, hl, hsl⟩
  rw [List.mem_map] at hl
  rcases hl with ⟨r, _, rfl⟩
  unfold ruleSpans at hsl
  rw [List.mem_map] at hsl
  rcases hsl with ⟨⟨a, b⟩, hab, rfl⟩
  simpa using matchAt_some_le (findMatches_mem hab)

/-- Witness for C10: the single keyword span of a two-character keyword line
ends exactly at the line length. -/
theorem C10_spans_in_bounds_witness :
    Span.mk 0 2 Style.keyword ∈ highlight javaRules (("if").data) ∧
    (Span.mk 0 2 Style.keyword).start + (Span.mk 0 2 Style.keyword).len
      ≤ (("if").data).length :=
  ⟨by decide, C10_spans_in_bounds javaRules (("if").data) (Span.mk 0 2 Style.keyword) (by decide)⟩

end ButterflyCode
